import Mathlib

/-!
Verification development for the suggestion engine of sentiment-slant-gi18
(`suggestion/suggestion_generator.py`).

Embedding conventions:
  * The external kenlm scoring primitive is abstracted: a language-model state
    is the pair (begin-of-sentence flag, list of word ids consumed), and the
    structure field `score` stands for `LOG10 * model.base_score_from_idx`,
    i.e. the incremental log-probability already converted to natural-log
    units (the source multiplies the raw log10 value by the constant LOG10 at
    every use; folding that positive constant into the abstract scorer keeps
    the scores exact).  `unigramProbs` likewise stands for the
    already-scaled `unigram_probs` array built in `get_arpa_data`.
  * Python float scores, clock readings and weights are modelled as exact
    integers: every claim settled here is about control flow, membership or
    the ordering of scores, and is invariant under the choice of the exact
    numeric subring standing in for the float values (the one inexact spot,
    the division by `temperature` feeding the abstracted softmax, is only
    ever exercised at temperature 1 here).
  * Python dicts keyed by word id are association lists with distinct keys,
    preserving insertion order as Python dicts do.
  * `heapq` operations (`heapify`, `heapreplace`, `nlargest`) and Python's
    stable `sorted(reverse=True)` are embedded faithfully below; CPython's
    `_siftup`/`_siftdown` are reproduced step for step.  Loops whose Python
    form is `while True` are written with an explicit fuel argument that is
    always at least the number of iterations the Python loop performs, so the
    embedded function agrees with the source on every input.
  * Python tuple comparison on beam entries inspects (score, words, done, ...)
    left to right; the source never compares two entries that agree on all
    three (kenlm states are not orderable and would raise), so the embedded
    order stops after `done`.
-/

deriving instance DecidableEq for Except

/-- Worker for `firstDedup`: keep an element iff it has not been seen yet. -/
def firstDedupGo (seen : List String) : List String → List String
  | [] => []
  | x :: xs => if x ∈ seen then firstDedupGo seen xs else x :: firstDedupGo (seen ++ [x]) xs

/-- Distinct elements of a list in first-occurrence order. -/
def firstDedup (l : List String) : List String := firstDedupGo [] l

/-- Lookup in a Python-dict-as-association-list, `d.get(k, [])`. -/
def alistGet (l : List (Nat × List Nat)) (k : Nat) : List Nat :=
  match l.find? (fun kv => kv.1 == k) with
  | some kv => kv.2
  | none => []

/-- Insert `x` into a descending-sorted list, after every element `y` with
`¬ lt y x` (so equal elements keep their original relative order, as Python's
stable sort does). -/
def insertDescBy (lt : α → α → Bool) (x : α) : List α → List α
  | [] => [x]
  | y :: ys => if lt y x then x :: y :: ys else y :: insertDescBy lt x ys

/-- Python's stable `sorted(l, reverse=True)` with strict-less test `lt`. -/
def pySortDescBy (lt : α → α → Bool) (l : List α) : List α :=
  l.foldl (fun acc x => insertDescBy lt x acc) []

/-- Python's `heapq.nlargest(n, l)`, documented equivalent to
`sorted(l, reverse=True)[:n]`. -/
def pyNlargest (lt : α → α → Bool) (n : Nat) (l : List α) : List α :=
  (pySortDescBy lt l).take n

/-- CPython `heapq._siftdown(heap, startpos, pos)` after `newitem = heap[pos]`
has been read; `fuel` bounds the loop (pos strictly decreases, so `pos + 1`
fuel is always enough and the fuel-exhausted branch is never taken for the
initial fuel the callers pass). -/
def pySiftdown (lt : α → α → Bool) (startpos : Nat) (newitem : α) :
    Nat → List α → Nat → List α
  | 0, l, pos => l.set pos newitem
  | fuel + 1, l, pos =>
    if startpos < pos then
      let parentpos := (pos - 1) / 2
      let parent := l.getD parentpos newitem
      if lt newitem parent then pySiftdown lt startpos newitem fuel (l.set pos parent) parentpos
      else l.set pos newitem
    else l.set pos newitem

/-- The descending phase of CPython `heapq._siftup`: bubble the smaller child
up until a leaf is reached, returning the final list and leaf position.
`fuel` bounds the loop (pos strictly increases below `l.length`, so
`l.length + 1` fuel is always enough). -/
def pySiftupLoop (lt : α → α → Bool) (newitem : α) :
    Nat → List α → Nat → List α × Nat
  | 0, l, pos => (l, pos)
  | fuel + 1, l, pos =>
    let endpos := l.length
    let childpos := 2 * pos + 1
    if childpos < endpos then
      let rightpos := childpos + 1
      let cp :=
        if rightpos < endpos ∧ !(lt (l.getD childpos newitem) (l.getD rightpos newitem)) then
          rightpos
        else childpos
      pySiftupLoop lt newitem fuel (l.set pos (l.getD cp newitem)) cp
    else (l, pos)

/-- CPython `heapq._siftup(heap, pos)`. -/
def pySiftup (lt : α → α → Bool) (l : List α) (pos : Nat) : List α :=
  match l.get? pos with
  | none => l
  | some newitem =>
    let lp := pySiftupLoop lt newitem (l.length + 1) l pos
    pySiftdown lt pos newitem (lp.2 + 1) (lp.1.set lp.2 newitem) lp.2

/-- The countdown `for i in reversed(range(n // 2)): _siftup(x, i)`. -/
def pyHeapifyGo (lt : α → α → Bool) : Nat → List α → List α
  | 0, l => l
  | k + 1, l => pyHeapifyGo lt k (pySiftup lt l k)

/-- CPython `heapq.heapify`. -/
def pyHeapify (lt : α → α → Bool) (l : List α) : List α :=
  pyHeapifyGo lt (l.length / 2) l

/-- CPython `heapq.heapreplace(heap, item)`: overwrite the root with `item`
and sift it down.  Note this evicts the current minimum even when `item`
is smaller than it. -/
def pyHeapreplace (lt : α → α → Bool) (l : List α) (item : α) : List α :=
  pySiftup lt (l.set 0 item) 0

/-! ## Language model (`Model` in `suggestion_generator.py`, kenlm abstracted) -/

/-- A kenlm state: begin-of-sentence flag and the word ids consumed so far.
The source treats states as opaque values produced by `BeginSentenceWrite` /
`NullContextWrite` and advanced one id at a time. -/
abbrev LMState := Bool × List Nat

/-- Advancing a state by one word id (`base_score_from_idx` writing its
out-state). -/
def lmAdvance (st : LMState) (w : Nat) : LMState := (st.1, st.2 ++ [w])

/-- The fields of `Model` that the suggestion algorithms read.  `score st w`
stands for `LOG10 * self.model.base_score_from_idx(st, w, out)`. -/
structure LM where
  vocabIndex : String → Nat
  id2str : Nat → String
  unigramProbs : Nat → ℤ
  unfilteredBigrams : List (Nat × List Nat)
  filteredBigrams : List (Nat × List Nat)
  eosIdx : Nat
  eopIdx : Nat
  score : LMState → Nat → ℤ
  trieItems : String → List (String × Nat)
  posTags : Nat → Nat

/-- `Model.score_seq` state threading (the cumulative score is also returned
by the source; callers of `get_state` discard it). -/
def scoreSeqState (m : LM) (st : LMState) (words : List String) : LMState :=
  words.foldl (fun s w => lmAdvance s (m.vocabIndex w)) st

/-- `Model.get_state(words, bos)` restricted to the state component. -/
def get_state (m : LM) (words : List String) (bos : Bool) : LMState :=
  scoreSeqState m (bos, []) words

/-- `Model.eval_logprobs_for_words` (the `*= LOG10` scaling is folded into
`m.score`). -/
def eval_logprobs_for_words (m : LM) (st : LMState) (ws : List Nat) : List ℤ :=
  ws.map (m.score st)

/-- `Model.next_word_logprobs_raw`.  With `pl = some L` the candidates come
from the vocabulary trie restricted to each prefix, each carrying its prior
log-weight; otherwise from the unfiltered bigram table with the sentence-start
fallback and end-of-sentence / end-of-document ids removed.  The source
returns `([], np.zeros(0))` when no candidate remains. -/
def next_word_logprobs_raw (m : LM) (st : LMState) (prevWord : String)
    (pl : Option (List (ℤ × String))) : List Nat × List ℤ :=
  match pl with
  | some lps =>
    let pairs := lps.flatMap (fun p => (m.trieItems p.2).map (fun wi => (wi.2, p.1)))
    let nextWords := pairs.map (fun q => q.1)
    let priors := pairs.map (fun q => q.2)
    if nextWords.isEmpty then ([], [])
    else (nextWords, (eval_logprobs_for_words m st nextWords).zipWith (· + ·) priors)
  | none =>
    let succ := alistGet m.unfilteredBigrams (m.vocabIndex prevWord)
    let base := if succ.length = 0 then alistGet m.unfilteredBigrams (m.vocabIndex "<S>") else succ
    let nextWords := base.filter (fun w => !(w == m.eosIdx) && !(w == m.eopIdx))
    if nextWords.isEmpty then ([], [])
    else (nextWords, eval_logprobs_for_words m st nextWords)

/-- Modelled from the spec (section 4.1), for the refinement claim about
`next_word_logprobs_raw` without prefixes: "candidates are the bigram
successors of prevWordId (falling back to the sentence-start successor list
if none, excluding end-of-sentence/end-of-document markers)". -/
def specCandidatesNoPrefix (m : LM) (prevWord : String) : List Nat :=
  let succ := alistGet m.unfilteredBigrams (m.vocabIndex prevWord)
  let base := if succ.length = 0 then alistGet m.unfilteredBigrams (m.vocabIndex "<S>") else succ
  base.filter (fun w => !(w == m.eosIdx) && !(w == m.eopIdx))

/-- One round of `Model.prune_bigrams`: filter every successor list against
the current table, then drop keys whose filtered list is empty.  The loop
breaks, keeping the *pre-filter* table, as soon as no key is dropped; `fuel`
(one more than the key count at the start) bounds the iteration count since
each continuing round strictly decreases the number of keys. -/
def pruneLoop : Nat → List (Nat × List Nat) → List (Nat × List Nat)
  | 0, bigrams => bigrams
  | fuel + 1, bigrams =>
    let newB := bigrams.map (fun kv =>
      (kv.1, kv.2.filter (fun tok => (alistGet bigrams tok).length > 0)))
    let trim := newB.filter (fun kv => kv.2.length > 0)
    if newB.length = trim.length then bigrams else pruneLoop fuel trim

/-- `Model.prune_bigrams` as a transformer of the unfiltered bigram table
(the method stores the result back into `self.unfiltered_bigrams`). -/
def prune_bigrams (bigrams : List (Nat × List Nat)) : List (Nat × List Nat) :=
  pruneLoop (bigrams.length + 1) bigrams

/-! ## Plain n-gram beam search (`beam_search_phrases`) -/

/-- A beam entry of `beam_search_phrases`: the tuple
`(score, words, done, penultimate_state, last_word_idx, num_chars, None)`
(the constant `bonuses = None` slot is omitted). -/
structure PEntry where
  score : ℤ
  words : List String
  done : Bool
  penultimate : LMState
  lastWordIdx : Nat
  numChars : Nat
deriving DecidableEq, Repr

instance : Inhabited PEntry := ⟨⟨0, [], false, (false, []), 0, 0⟩⟩

/-- Lexicographic `<` on character lists (Python string comparison; the
library `String.lt` decision procedure does not evaluate in the kernel). -/
def charListLtB : List Char → List Char → Bool
  | [], [] => false
  | [], _ :: _ => true
  | _ :: _, [] => false
  | a :: as, b :: bs => if a < b then true else if b < a then false else charListLtB as bs

/-- Python `<` on strings. -/
def strLtB (a b : String) : Bool := charListLtB a.data b.data

/-- Python `<` on lists of strings (elementwise, shorter list first on
agreement). -/
def strListLtB : List String → List String → Bool
  | [], [] => false
  | [], _ :: _ => true
  | _ :: _, [] => false
  | a :: as, b :: bs => if strLtB a b then true else if strLtB b a then false else strListLtB as bs

/-- Python tuple `<` on `beam_search_phrases` entries; the source never
compares entries equal on (score, words, done) (the next component, a kenlm
state, is not orderable). -/
def pentryLtB (a b : PEntry) : Bool :=
  if a.score < b.score then true
  else if b.score < a.score then false
  else if strListLtB a.words b.words then true
  else if strListLtB b.words a.words then false
  else !a.done && b.done

/-- The fixed-size heap discipline of `beam_search_phrases`: append until the
beam reaches `beamWidth` (heapifying at that moment), then `heapreplace`
every further candidate. -/
def heapPush (beamWidth : Nat) (acc : List PEntry) (x : PEntry) : List PEntry :=
  if acc.length = beamWidth then pyHeapreplace pentryLtB acc x
  else
    let acc := acc ++ [x]
    if acc.length = beamWidth then pyHeapify pentryLtB acc else acc

/-- Expansion of one non-complete entry at step `i` of `beam_search_phrases`:
one candidate per bigram successor (trie-matched prefixes with prior weights
at step 0 when `pl` is given), skipping end-of-sentence / end-of-document
ids. -/
def bspExpandEntry (m : LM) (pl : Option (List (ℤ × String))) (len i : Nat)
    (e : PEntry) : List PEntry :=
  let lastState := if 0 < i then lmAdvance e.penultimate e.lastWordIdx else e.penultimate
  let prefixChars := if 0 < i then 1 else 0
  let nextPairs : List (Nat × Option ℤ) :=
    match pl with
    | some lps =>
      if i = 0 then
        lps.flatMap (fun p => (m.trieItems p.2).map (fun wi => (wi.2, some p.1)))
      else
        (alistGet (if i = 0 then m.unfilteredBigrams else m.filteredBigrams) e.lastWordIdx).map
          (fun w => (w, none))
    | none =>
      (alistGet (if i = 0 then m.unfilteredBigrams else m.filteredBigrams) e.lastWordIdx).map
        (fun w => (w, none))
  (nextPairs.filter (fun p => !(p.1 == m.eosIdx) && !(p.1 == m.eopIdx))).map (fun p =>
    let prob := match p.2 with | some q => q | none => 0
    let newScore := e.score + prob + m.score lastState p.1
    let word := m.id2str p.1
    let newNumChars := e.numChars + prefixChars + word.length
    { score := newScore, words := e.words ++ [word], done := decide (len ≤ newNumChars),
      penultimate := lastState, lastWordIdx := p.1, numChars := newNumChars })

/-- One step of `beam_search_phrases`: completed entries pass through into the
new beam, then every expansion of every non-complete entry (in beam order) is
pushed with the fixed-size heap discipline. -/
def bspStep (m : LM) (pl : Option (List (ℤ × String))) (beamWidth len i : Nat)
    (beam : List PEntry) : List PEntry :=
  (beam.flatMap (fun e => if e.done then [] else bspExpandEntry m pl len i e)).foldl
    (heapPush beamWidth) (beam.filter (fun e => e.done))

/-- The `for i in range(length)` loop of `beam_search_phrases`; `r` counts the
remaining iterations, `i` the current index. -/
def bspLoop (m : LM) (pl : Option (List (ℤ × String))) (beamWidth len : Nat) :
    Nat → Nat → List PEntry → List PEntry
  | 0, _, beam => beam
  | r + 1, i, beam => bspLoop m pl beamWidth len r (i + 1) (bspStep m pl beamWidth len i beam)

/-- The start entry of `beam_search_phrases`:
`(0., [], False, start_state, vocab_index(start_words[-1]), 0, None)`. -/
def bspInit (m : LM) (startWords : List String) : PEntry :=
  { score := 0, words := [], done := false, penultimate := get_state m startWords false,
    lastWordIdx := m.vocabIndex (startWords.getLastD ""), numChars := 0 }

/-- `beam_search_phrases(model, start_words, beam_width, length, prefix_logprobs)`:
run `length` steps from the single start entry and sort the surviving beam
descending. -/
def beam_search_phrases (m : LM) (startWords : List String) (beamWidth len : Nat)
    (pl : Option (List (ℤ × String))) : List PEntry :=
  pySortDescBy pentryLtB (bspLoop m pl beamWidth len len 0 [bspInit m startWords])

/-- Modelled from the spec, for comparison with `beam_search_phrases`: the
same per-step expansion with an unbounded beam, i.e. the next beam is every
pass-through completed entry followed by every expansion (the width-w search
of the source keeps a subset of these). -/
def exhaustiveStep (m : LM) (pl : Option (List (ℤ × String))) (len i : Nat)
    (beam : List PEntry) : List PEntry :=
  beam.filter (fun e => e.done) ++
    beam.flatMap (fun e => if e.done then [] else bspExpandEntry m pl len i e)

/-- The unbounded-beam loop matching `bspLoop`. -/
def exhaustiveLoop (m : LM) (pl : Option (List (ℤ × String))) (len : Nat) :
    Nat → Nat → List PEntry → List PEntry
  | 0, _, beam => beam
  | r + 1, i, beam => exhaustiveLoop m pl len r (i + 1) (exhaustiveStep m pl len i beam)

/-- The unbounded-beam (exhaustive) search from the same start entry. -/
def exhaustive_beam_search (m : LM) (startWords : List String) (len : Nat)
    (pl : Option (List (ℤ × String))) : List PEntry :=
  exhaustiveLoop m pl len len 0 [bspInit m startWords]

/-! ## Suffix array index (`DocSuffixArray` data and `collect_words_in_range`) -/

/-- The suffix-array data the serving code reads: tokenized documents and the
parallel sorted-position arrays `doc_idx`, `tok_idx`, `lcp`. -/
structure SufArr where
  docs : List (List String)
  doc_idx : List Nat
  tok_idx : List Nat
  lcp : List Nat
deriving Repr

/-- Python `s.startswith(pre)` on strings, via the underlying character
lists (the library `String.startsWith` does not evaluate in the kernel). -/
def strStartsWith (s pre : String) : Bool := pre.data.isPrefixOf s.data

/-- `sufarr.docs[sufarr.doc_idx[p]][sufarr.tok_idx[p] + d]`: the token at
offset `d` of the suffix at sorted position `p`. -/
def wordAt (sa : SufArr) (p d : Nat) : String :=
  (sa.docs.getD (sa.doc_idx.getD p 0) []).getD (sa.tok_idx.getD p 0 + d) ""

/-- `_next_elt_le(arr, criterion, start, fin)`: the first index in
`[start, fin)` whose value is ≤ `criterion`, else `fin`; `k` is the
remaining-range counter `fin - start`. -/
def nextEltLeGo (arr : List Nat) (criterion fin : Nat) : Nat → Nat → Nat
  | 0, _ => fin
  | k + 1, start => if arr.getD start 0 ≤ criterion then start else nextEltLeGo arr criterion fin k (start + 1)

/-- `_next_elt_le` with the loop counter instantiated. -/
def nextEltLe (arr : List Nat) (criterion start fin : Nat) : Nat :=
  nextEltLeGo arr criterion fin (fin - start) start

/-- The `while True` loop of `collect_words_in_range`: jump to the successor
of the next position whose LCP with its predecessor is ≤ `wordIdx`, collect
its token at offset `wordIdx`, and repeat; stop when the jump search reaches
`afterEnd - 1`.  Each pass strictly increases `start`, so the fuel
`afterEnd - start` the wrapper passes is never exhausted. -/
def cwirLoop (sa : SufArr) (wordIdx afterEnd : Nat) : Nat → Nat → List String
  | 0, _ => []
  | fuel + 1, start =>
    let b := nextEltLe sa.lcp wordIdx start (afterEnd - 1)
    if b = afterEnd - 1 then []
    else wordAt sa (b + 1) wordIdx :: cwirLoop sa wordIdx afterEnd fuel (b + 1)

/-- `collect_words_in_range(start, after_end, word_idx)`. -/
def collect_words_in_range (sa : SufArr) (start afterEnd wordIdx : Nat) : List String :=
  if start = afterEnd then []
  else wordAt sa start wordIdx :: cwirLoop sa wordIdx afterEnd (afterEnd - start) start

/-- Whether the suffix at sorted position `p` matches the token pattern
`pat`, whose last element is a string prefix (the empty string acting as the
"any token extension" wildcard): the pattern must fit inside the document,
all tokens but the last must match exactly, and the token under the last must
start with it. -/
def patternMatchesAt (sa : SufArr) (pat : List String) (p : Nat) : Bool :=
  let doc := sa.docs.getD (sa.doc_idx.getD p 0) []
  let t0 := sa.tok_idx.getD p 0
  decide (t0 + pat.length ≤ doc.length) &&
    (List.range pat.length).all (fun k =>
      if k + 1 = pat.length then strStartsWith (doc.getD (t0 + k) "") (pat.getD k "")
      else doc.getD (t0 + k) "" == pat.getD k "")

/-- Modelled from the spec: `DocSuffixArray.search_range` lives in
`suggestion/suffix_array.py`, which is not among the provided sources.  Spec
section 4.2: "binary-search the sorted suffix order for the contiguous range
of positions whose suffix starts with tokenPattern (sequence of tokens, last
element may be an empty-string wildcard meaning any token extension); returns
(lo, hi) with lo == hi when no match."  For a sorted suffix array the
matching positions are contiguous, so the range is the first matching
position paired with the first position plus the match count. -/
def searchRange (sa : SufArr) (pat : List String) : Nat × Nat :=
  let n := sa.doc_idx.length
  let lo := (List.range n).findIdx (fun p => patternMatchesAt sa pat p)
  (lo, lo + ((List.range n).filter (fun p => patternMatchesAt sa pat p)).length)

/-! ## Corpus-constrained beam search (`beam_search_sufarr`) -/

/-- A beam entry of `beam_search_sufarr`; the start entry carries
`last_word_idx = None` and `bonuses = []`, expansions carry a word id and
`bonuses = None`. -/
structure SEntry where
  score : ℤ
  words : List String
  done : Bool
  penultimate : LMState
  lastWordIdx : Option Nat
  numChars : Nat
  bonuses : Option (List ℤ)
deriving DecidableEq, Repr

instance : Inhabited SEntry := ⟨⟨0, [], false, (false, []), none, 0, none⟩⟩

/-- Python tuple `<` on `beam_search_sufarr` entries (score, then words, then
done; later components are never reached on entries the source compares). -/
def sentryLtB (a b : SEntry) : Bool :=
  if a.score < b.score then true
  else if b.score < a.score then false
  else if strListLtB a.words b.words then true
  else if strListLtB b.words a.words then false
  else !a.done && b.done

/-- Expansion of one non-complete entry of `beam_search_sufarr` at step `i`:
corpus continuations of `(start_words[-1],) + tuple(words) + (prefix,)`, each
scored by the language model plus the rare-word bonus
`-unigram_probs[word_idx] * rare_word_bonus` when `i > 0`, the word id
exceeds 4, the word is not punctuation (first character in `<.!?`) and the
word has not already appeared in the phrase.  An empty continuation set is
tolerated only at an end-of-sentence token (`assert` in the source, embedded
as an error); a `None` last word id there would make the source raise a
`TypeError`. -/
def sufarrExpandEntry (m : LM) (sa : SufArr) (startWords : List String) (rwb : ℤ)
    (len i : Nat) (pfx : String) (e : SEntry) : Except String (List SEntry) :=
  let lastState :=
    match e.lastWordIdx with
    | some w => lmAdvance e.penultimate w
    | none => e.penultimate
  let rng := searchRange sa ([startWords.getLastD ""] ++ e.words ++ [pfx])
  let nextWords := collect_words_in_range sa rng.1 rng.2 (i + 1)
  let prefixChars := if 0 < i then 1 else 0
  if nextWords.isEmpty then
    match e.lastWordIdx with
    | none => .error "TypeError: id2str[None]"
    | some w => if m.id2str w = "</S>" then .ok [] else .error "AssertionError"
  else
    .ok (nextWords.map (fun word =>
      let c := word.front
      let isPunct := c = '<' ∨ c = '.' ∨ c = '!' ∨ c = '?'
      let isSpecial := c = '<'
      let wordIdx := m.vocabIndex word
      let newNumChars := e.numChars + (if isSpecial then 0 else prefixChars + word.length)
      let logprob := m.score lastState wordIdx
      let unigramBonus : ℤ :=
        if 0 < i ∧ 4 < wordIdx ∧ ¬isPunct ∧ word ∉ e.words then
          -m.unigramProbs wordIdx * rwb
        else 0
      { score := e.score + logprob + unigramBonus, words := e.words ++ [word],
        done := decide (len ≤ newNumChars), penultimate := lastState,
        lastWordIdx := some wordIdx, numChars := newNumChars, bonuses := none }))

/-- The `candidates()` generator of one `beam_search_sufarr` step: completed
entries pass through, non-complete entries contribute their expansions, in
beam order. -/
def sufarrCandidates (m : LM) (sa : SufArr) (startWords : List String) (rwb : ℤ)
    (len i : Nat) (pfx : String) : List SEntry → Except String (List SEntry)
  | [] => .ok []
  | e :: rest =>
    let head : Except String (List SEntry) :=
      if e.done then .ok [e] else sufarrExpandEntry m sa startWords rwb len i pfx e
    match head, sufarrCandidates m sa startWords rwb len i pfx rest with
    | .ok cs, .ok tail => .ok (cs ++ tail)
    | .error s, _ => .error s
    | _, .error s => .error s

/-- One step of `beam_search_sufarr`: `heapq.nlargest(beam_width, candidates())`. -/
def sufarrStep (m : LM) (sa : SufArr) (startWords : List String) (beamWidth : Nat)
    (rwb : ℤ) (len i : Nat) (pfx : String) (beam : List SEntry) :
    Except String (List SEntry) :=
  match sufarrCandidates m sa startWords rwb len i pfx beam with
  | .ok cs => .ok (pyNlargest sentryLtB beamWidth cs)
  | .error s => .error s

/-- The `for i in range(length)` loop of `beam_search_sufarr`.  `times` is the
sequence of `time.time()` readings: `times 0` is `start_time`, `times (i+1)`
the reading at the top of iteration `i`.  When the elapsed time exceeds the
latency budget the loop breaks and the beam carried so far is returned. -/
def sufarrGo (m : LM) (sa : SufArr) (startWords : List String) (beamWidth : Nat)
    (rwb : ℤ) (len : Nat) (budget : ℤ) (times : Nat → ℤ) :
    Nat → Nat → String → List SEntry → Except String (List SEntry)
  | 0, _, _, beam => .ok beam
  | r + 1, i, pfx, beam =>
    if budget < times (i + 1) - times 0 then .ok beam
    else
      match sufarrStep m sa startWords beamWidth rwb len i pfx beam with
      | .ok b => sufarrGo m sa startWords beamWidth rwb len budget times r (i + 1) "" b
      | .error s => .error s

/-- The start entry of `beam_search_sufarr`:
`(0., [], False, start_state, None, 0, [])`. -/
def sufarrInit (m : LM) (startWords : List String) : SEntry :=
  { score := 0, words := [], done := false, penultimate := get_state m startWords false,
    lastWordIdx := none, numChars := 0, bonuses := some [] }

/-- `beam_search_sufarr(model, sufarr, start_words, beam_width, length,
rare_word_bonus, prefix, latency_budget)` with the wall clock passed
explicitly. -/
def beam_search_sufarr (m : LM) (sa : SufArr) (startWords : List String)
    (beamWidth len : Nat) (rwb : ℤ) (pfx : String) (budget : ℤ)
    (times : Nat → ℤ) : Except String (List SEntry) :=
  sufarrGo m sa startWords beamWidth rwb len budget times len 0 pfx [sufarrInit m startWords]

/-- First generated word of an entry, `ent.words[0]` (the source raises an
IndexError on an empty word list). -/
def entFirstWord (e : SEntry) : String := e.words.headD ""

/-- The sort key of the diversity selection loop:
`(ent.words[0] not in first_words, ent.score)`, compared as a Python tuple
with `False < True`. -/
def diversityKeyLtB (firstWords : List String) (a b : SEntry) : Bool :=
  let ka : Bool := !(firstWords.contains (entFirstWord a))
  let kb : Bool := !(firstWords.contains (entFirstWord b))
  if ka = kb then a.score < b.score else (!ka && kb)

/-- The `while len(result) < n and len(ents) > 0` selection loop of
`generate_by_beamsearch_sufarr`: re-sort the remaining entries descending by
`(first word unused, score)` and pop the best.  The fuel is the length of
`ents`, which drops by one per iteration; the sort key reads `ent.words[0]`
of every remaining entry, so an empty word list raises. -/
def diverseGo (n : Nat) : Nat → List SEntry → List SEntry → List String →
    Except String (List SEntry)
  | 0, _, result, _ => .ok result
  | fuel + 1, ents, result, firstWords =>
    if result.length < n ∧ ents ≠ [] then
      if ents.any (fun e => e.words.isEmpty) then .error "IndexError: words[0]"
      else
        match pySortDescBy (diversityKeyLtB firstWords) ents with
        | [] => .ok result
        | best :: others =>
          diverseGo n fuel others (result ++ [best]) (firstWords ++ [entFirstWord best])
    else .ok result

/-- The diversity-aware top-`n` selection of `generate_by_beamsearch_sufarr`:
`result = [ents.pop(0)]` (IndexError on an empty list, and on an entry with
no words when its first word is read), then the preference loop. -/
def diverseSelect (n : Nat) (ents : List SEntry) : Except String (List SEntry) :=
  match ents with
  | [] => .error "IndexError: pop from empty list"
  | e0 :: rest =>
    if e0.words.isEmpty then .error "IndexError: words[0]"
    else diverseGo n rest.length rest [e0] [entFirstWord e0]

/-- `generate_by_beamsearch_sufarr(model, context_toks, n, length, prefix, …)`:
run the corpus-constrained beam search, select diverse entries, and strip
every token whose first character is the sentinel marker `<` (the constant
`None` probability slot of each returned pair is omitted). -/
def generate_by_beamsearch_sufarr (m : LM) (sa : SufArr) (contextToks : List String)
    (n len : Nat) (pfx : String) (beamWidth : Nat) (rwb : ℤ) (budget : ℤ)
    (times : Nat → ℤ) : Except String (List (List String)) :=
  match beam_search_sufarr m sa contextToks beamWidth len rwb pfx budget times with
  | .error s => .error s
  | .ok ents =>
    match diverseSelect n ents with
    | .error s => .error s
    | .ok picked => .ok (picked.map (fun e => e.words.filter (fun w => !(w.front == '<'))))

/-! ## Sampling generator (`next_word_probs`, `generate_phrase`, retry) -/

/-- `next_word_probs`: raw candidates and log-probabilities, then the length
bonus, part-of-speech weights, temperature scaling and softmax.  The
real-valued `softmax` (and only it) is abstracted as the parameter `smax`;
it is applied to the adjusted log-probabilities exactly where the source
applies `softmax`.  An empty candidate list is returned before any of the
adjustments, as in the source. -/
def next_word_probs (smax : List ℤ → List ℤ) (m : LM) (st : LMState)
    (prevWord : String) (pl : Option (List (ℤ × String))) (temperature : ℤ)
    (lbMinLen : Nat) (lbAmt : ℤ) (posW : Option (List ℤ)) : List Nat × List ℤ :=
  let nwlp := next_word_logprobs_raw m st prevWord pl
  let nextWords := nwlp.1
  if nextWords.isEmpty then nwlp
  else
    let lps :=
      if lbAmt ≠ 0 then
        (nextWords.zip nwlp.2).map (fun (p : Nat × ℤ) =>
          p.2 + lbAmt * (if lbMinLen ≤ (m.id2str p.1).length then 1 else 0))
      else nwlp.2
    let lps :=
      match posW with
      | some pw => (nextWords.zip lps).map (fun (p : Nat × ℤ) => p.2 + pw.getD (m.posTags p.1) 0)
      | none => lps
    (nextWords, smax (lps.map (fun x => x / temperature)))

/-- The error alphabet of the sampling generator: the
`GenerationFailedException` the zero-candidate step raises, or any other
exception. -/
inductive GErr where
  | genFailed : GErr
  | other : String → GErr
deriving DecidableEq, Repr

/-- One attempt of `generate_phrase` (the undecorated body).  `picks i` is
the oracle for `np.random.choice` at step `i` (reduced modulo the number of
probabilities), `logQ` stands for the real-valued `np.log` recording the
chosen probability.  The prefix log-probabilities are dropped after the
first step, and a step with no candidates raises `GenerationFailedException`. -/
def generate_phrase_once (smax : List ℤ → List ℤ) (logQ : ℤ → ℤ) (m : LM)
    (contextToks : List String) (len : Nat) (pl0 : Option (List (ℤ × String)))
    (temperature : ℤ) (lbMinLen : Nat) (lbAmt : ℤ) (posW : Option (List ℤ))
    (picks : Nat → Nat) : Except GErr (List String × List ℤ) :=
  let st0 :=
    if contextToks.headD "" = "<s>" then get_state m (contextToks.drop 1) true
    else get_state m contextToks false
  let rec go : Nat → Nat → LMState → List String →
      Option (List (ℤ × String)) → List ℤ → Except GErr (List String × List ℤ)
    | 0, _, _, phrase, _, acc => .ok (phrase.drop contextToks.length, acc)
    | r + 1, i, st, phrase, pl, acc =>
      let nwp := next_word_probs smax m st (phrase.getLastD "") pl temperature lbMinLen lbAmt posW
      if nwp.1.isEmpty then .error .genFailed
      else
        let subidx := picks i % nwp.2.length
        let pickedIdx := nwp.1.getD subidx 0
        go r (i + 1) (lmAdvance st pickedIdx) (phrase ++ [m.id2str pickedIdx]) none
          (acc ++ [logQ (nwp.2.getD subidx 0)])
  go len 0 st0 contextToks pl0 []

/-- `retry_on_exception(exception, tries)` specialised to
`GenerationFailedException`: call the body up to `tries` times swallowing
only that exception, then call it once more outside any handler.  `fn` takes
the attempt number (each Python call re-runs the body with fresh
randomness); `r` counts the calls that still catch. -/
def retryGo (fn : Nat → Except GErr α) : Nat → Nat → Except GErr α
  | 0, i => fn i
  | r + 1, i =>
    match fn i with
    | .ok a => .ok a
    | .error .genFailed => retryGo fn r (i + 1)
    | .error (.other s) => .error (.other s)

/-- The decorator applied to a body `fn`. -/
def retry_on_exception (tries : Nat) (fn : Nat → Except GErr α) : Except GErr α :=
  retryGo fn tries 0

/-- `generate_phrase`, i.e. `retry_on_exception(GenerationFailedException, 10)`
wrapped around the attempt body, with per-attempt randomness `picksFam`. -/
def generate_phrase (smax : List ℤ → List ℤ) (logQ : ℤ → ℤ) (m : LM)
    (contextToks : List String) (len : Nat) (pl0 : Option (List (ℤ × String)))
    (temperature : ℤ) (lbMinLen : Nat) (lbAmt : ℤ) (posW : Option (List ℤ))
    (picksFam : Nat → Nat → Nat) : Except GErr (List String × List ℤ) :=
  retry_on_exception 10 (fun attempt =>
    generate_phrase_once smax logQ m contextToks len pl0 temperature lbMinLen lbAmt posW
      (picksFam attempt))

/-! ## Concrete instances used by counterexamples and witnesses -/

/-- A three-word toy model (start word "z", successors "a" scored -1 and "b"
scored -2, listed in that order). -/
def C1M : LM :=
  { vocabIndex := fun s => if s = "z" then 0 else if s = "a" then 1 else if s = "b" then 2 else 50
    id2str := fun n => if n = 0 then "z" else if n = 1 then "a" else if n = 2 then "b" else ""
    unigramProbs := fun _ => 0
    unfilteredBigrams := [(0, [1, 2])]
    filteredBigrams := []
    eosIdx := 98, eopIdx := 99
    score := fun st w =>
      if st = (false, [0]) ∧ w = 1 then -1 else if st = (false, [0]) ∧ w = 2 then -2 else 0
    trieItems := fun _ => []
    posTags := fun _ => 0 }

/-- A toy model on which widening the beam of `beam_search_phrases` from 1 to
2 lowers the best score (single-character words, so `length = 4` gives three
expansion steps followed by a pass-through step). -/
def C4M : LM :=
  { vocabIndex := fun s =>
      if s = "z" then 0 else if s = "a" then 1 else if s = "b" then 2
      else if s = "c" then 3 else if s = "d" then 4 else if s = "e" then 5
      else if s = "f" then 6 else 50
    id2str := fun n =>
      if n = 0 then "z" else if n = 1 then "a" else if n = 2 then "b"
      else if n = 3 then "c" else if n = 4 then "d" else if n = 5 then "e"
      else if n = 6 then "f" else ""
    unigramProbs := fun _ => 0
    unfilteredBigrams := [(0, [1, 2])]
    filteredBigrams := [(1, [4, 5]), (2, [3]), (3, [6]), (4, [6]), (5, [6])]
    eosIdx := 98, eopIdx := 99
    score := fun st w =>
      if st = (false, [0]) ∧ w = 1 then 0
      else if st = (false, [0]) ∧ w = 2 then -20
      else if st = (false, [0, 2]) ∧ w = 3 then 0
      else if st = (false, [0, 1]) ∧ w = 4 then -1
      else if st = (false, [0, 1]) ∧ w = 5 then -2
      else if st = (false, [0, 2, 3]) ∧ w = 6 then -10
      else if st = (false, [0, 1, 4]) ∧ w = 6 then -100
      else if st = (false, [0, 1, 5]) ∧ w = 6 then -100
      else 0
    trieItems := fun _ => []
    posTags := fun _ => 0 }

/-- A two-position suffix array over documents `["a","x"]` and `["b","x"]`;
the two suffixes "a x" and "b x" differ at offset 0 but agree at offset 1. -/
def C2SA : SufArr :=
  { docs := [["a", "x"], ["b", "x"]], doc_idx := [0, 1], tok_idx := [0, 0], lcp := [0] }

/-- A two-position suffix array over documents `["a","x"]` and `["a","y"]`
restricted to the two suffixes starting at token 0 (shared one-token
prefix "a", distinct tokens at offset 1). -/
def C2WSA : SufArr :=
  { docs := [["a", "x"], ["a", "y"]], doc_idx := [0, 1], tok_idx := [0, 0], lcp := [1] }

/-- The suffix array of the one-document corpus `["the","cat"]` (sorted
suffixes: "cat", "the cat"). -/
def C5SA : SufArr :=
  { docs := [["the", "cat"]], doc_idx := [0, 0], tok_idx := [1, 0], lcp := [0] }

/-- A model whose unigram log-probability for "cat" (id 7) is -5, so a
rare-word bonus of weight 1 would add +5 to a candidate scoring it. -/
def C5M : LM :=
  { vocabIndex := fun s => if s = "the" then 6 else if s = "cat" then 7 else 0
    id2str := fun n => if n = 6 then "the" else if n = 7 then "cat" else ""
    unigramProbs := fun n => if n = 7 then -5 else 0
    unfilteredBigrams := []
    filteredBigrams := []
    eosIdx := 98, eopIdx := 99
    score := fun _ _ => -1
    trieItems := fun _ => []
    posTags := fun _ => 0 }

/-- A model for the sampling generator: "a" (id 1) is followed by "b" (id 2,
a dead end) and "c" (id 3), and "c" by "d" (id 4); there is no sentence-start
fallback list. -/
def C8M : LM :=
  { vocabIndex := fun s =>
      if s = "a" then 1 else if s = "b" then 2 else if s = "c" then 3
      else if s = "d" then 4 else if s = "<S>" then 30 else 0
    id2str := fun n =>
      if n = 1 then "a" else if n = 2 then "b" else if n = 3 then "c"
      else if n = 4 then "d" else ""
    unigramProbs := fun _ => 0
    unfilteredBigrams := [(1, [2, 3]), (3, [4])]
    filteredBigrams := []
    eosIdx := 98, eopIdx := 99
    score := fun _ _ => 0
    trieItems := fun _ => []
    posTags := fun _ => 0 }

/-- Random-choice oracles for `C8M`: attempt 0 always picks index 0 (the dead
end "b"), every later attempt picks index 1 at the first step ("c"). -/
def c8Picks : Nat → Nat → Nat := fun attempt _ => if attempt = 0 then 0 else 1

/-- Three beam entries with first words "u", "u", "v" and scores 10, 9, 1,
for exercising the diversity selection. -/
def c6Ents : List SEntry :=
  [ { score := 10, words := ["u", "w"], done := true, penultimate := (false, []),
      lastWordIdx := some 1, numChars := 3, bonuses := none }
  , { score := 9, words := ["u", "q"], done := true, penultimate := (false, []),
      lastWordIdx := some 2, numChars := 3, bonuses := none }
  , { score := 1, words := ["v"], done := true, penultimate := (false, []),
      lastWordIdx := some 3, numChars := 1, bonuses := none } ]

/-! ## Theorems -/

/-- C1: the beam carried into the next step of `beam_search_phrases` is NOT
the top-`beamWidth` candidates by score: `heapq.heapreplace` pops the current
minimum and inserts the new candidate unconditionally (where `heappushpop`
would be needed), so a full beam replaces a better entry by a worse incoming
one.  At width 1 the single start entry expands into candidates scored
-1 and -2 (in that order), whose top-1 is the -1 entry, yet the beam carried
out of the step — and returned — is the -2 entry. -/
theorem c1_heapreplace_keeps_worse_candidate :
    (bspExpandEntry C1M none 1 0 (bspInit C1M ["z"])).map PEntry.score = [-1, -2] ∧
    (beam_search_phrases C1M ["z"] 1 1 none).map PEntry.score = [-2] ∧
    ¬ ((-1 : ℤ) ≤ -2) :=
  ⟨by decide, by decide, by decide⟩

/-- C3: after `Model.prune_bigrams` on the table `{0: [0, 1]}` (word 0
followed by itself and by word 1, word 1 never a key), the returned table
still lists successor 1 under key 0 although 1 has no successor list: the
loop breaks as soon as no key is dropped and stores the table from *before*
the final filtering pass, contradicting the method's own comment ("Filter
bigrams to only include words that actually follow"). -/
theorem c3_prune_keeps_dead_successor :
    prune_bigrams [(0, [0, 1])] = [(0, [0, 1])] ∧
    1 ∈ alistGet (prune_bigrams [(0, [0, 1])]) 0 ∧
    alistGet (prune_bigrams [(0, [0, 1])]) 1 = [] :=
  ⟨by decide, by decide, by decide⟩

/-- C2, counterexample to the claim as stated: over an arbitrary rank range
the result of `collect_words_in_range` is not the distinct tokens at the
requested depth — on a range whose two suffixes differ already at offset 0
but share the token "x" at offset 1, the function returns ["x", "x"]. -/
theorem c2_counterexample_duplicate_tokens :
    collect_words_in_range C2SA 0 2 1 = ["x", "x"] ∧
    firstDedup ((List.range' 0 2).map (fun p => wordAt C2SA p 1)) = ["x"] ∧
    collect_words_in_range C2SA 0 2 1 ≠
      firstDedup ((List.range' 0 2).map (fun p => wordAt C2SA p 1)) :=
  ⟨by decide, by decide, by decide⟩

/-- C4, counterexample to the claim as stated: on `C4M` with start context
["z"] and length 4, `beam_search_phrases` at width 1 finds best score -30,
but at width 2 the heap-replace discipline evicts the entry leading to that
completion and the best score drops to -101 — widening the beam decreased
the best score. -/
theorem c4_counterexample_wider_beam_worse :
    (beam_search_phrases C4M ["z"] 1 4 none).map PEntry.score = [-30] ∧
    (beam_search_phrases C4M ["z"] 2 4 none).map PEntry.score = [-101, -102] ∧
    ¬ ((-30 : ℤ) ≤ -101) :=
  ⟨by decide, by decide, by decide⟩

/-- C5, counterexample to the claim as stated: at step `i = 0` of
`beam_search_sufarr` on `C5M`/`C5SA`, the expansion of the start entry by the
word "cat" — not punctuation, not yet in the phrase — receives NO rare-word
bonus (its score is the bare language-model score -1), while the claim
demands the score be increased by `-unigram_probs[7] * 1 = 5`; the source
additionally requires `i > 0` and `word_idx > 4`. -/
theorem c5_counterexample_no_bonus_at_first_step :
    sufarrExpandEntry C5M C5SA ["the"] 1 1 0 "" (sufarrInit C5M ["the"]) =
      .ok [{ score := -1, words := ["cat"], done := true, penultimate := (false, [6]),
             lastWordIdx := some 7, numChars := 3, bonuses := none }] ∧
    ¬("cat".front = '<' ∨ "cat".front = '.' ∨ "cat".front = '!' ∨ "cat".front = '?') ∧
    "cat" ∉ (sufarrInit C5M ["the"]).words ∧
    (-1 : ℤ) ≠ (sufarrInit C5M ["the"]).score +
        C5M.score (false, [6]) (C5M.vocabIndex "cat") +
        -C5M.unigramProbs (C5M.vocabIndex "cat") * 1 :=
  ⟨by decide, by decide, by decide, by decide⟩

/-- C9: without prefix log-probabilities, `next_word_logprobs_raw` returns
exactly the spec's candidate set — the bigram successors of the previous
word's id, replaced by the sentence-start successor list when the previous
word has none, with the end-of-sentence and end-of-document ids removed —
paired with their language-model log-probabilities; in particular, when that
set is empty it returns the pair of empty lists rather than raising. -/
theorem c9_next_word_candidates_match_spec (m : LM) (st : LMState) (prev : String) :
    next_word_logprobs_raw m st prev none =
      (specCandidatesNoPrefix m prev, (specCandidatesNoPrefix m prev).map (m.score st)) := by
  simp only [next_word_logprobs_raw, specCandidatesNoPrefix, eval_logprobs_for_words]
  split <;>
  · split
    · rename_i h2
      rw [List.isEmpty_iff] at h2
      rw [h2]
      rfl
    · rfl

/-- C5 (amended): every expansion candidate produced by one
`beam_search_sufarr` step extends the entry's phrase by a word collected from
the corpus range, and its score is the entry's score plus the language-model
log-probability plus exactly `-unigram_probs[wordId] * rare_word_bonus` when
the step index is positive, the word id exceeds 4, the word is not a
punctuation/marker token and the word has not already appeared in the
phrase — and exactly no bonus otherwise. -/
theorem c5_rare_word_bonus_condition (m : LM) (sa : SufArr) (sw : List String)
    (rwb : ℤ) (len i : Nat) (pfx : String) (e : SEntry) (cs : List SEntry)
    (h : sufarrExpandEntry m sa sw rwb len i pfx e = .ok cs) :
    ∀ cand ∈ cs, ∃ w ∈ collect_words_in_range sa
        (searchRange sa ([sw.getLastD ""] ++ e.words ++ [pfx])).1
        (searchRange sa ([sw.getLastD ""] ++ e.words ++ [pfx])).2 (i + 1),
      cand.words = e.words ++ [w] ∧
      cand.score = e.score +
        m.score (match e.lastWordIdx with
                 | some v => lmAdvance e.penultimate v
                 | none => e.penultimate) (m.vocabIndex w) +
        (if 0 < i ∧ 4 < m.vocabIndex w ∧
            ¬(w.front = '<' ∨ w.front = '.' ∨ w.front = '!' ∨ w.front = '?') ∧
            w ∉ e.words
         then -m.unigramProbs (m.vocabIndex w) * rwb else 0) := by
  intro cand hc
  rcases hl : e.lastWordIdx with _ | v
  · simp only [sufarrExpandEntry, hl] at h
    split at h
    · exact absurd h (by simp)
    · rw [Except.ok.injEq] at h
      subst h
      rcases List.mem_map.mp hc with ⟨w, hw, rfl⟩
      exact ⟨w, hw, rfl, rfl⟩
  · simp only [sufarrExpandEntry, hl] at h
    split at h
    · split at h
      · rw [Except.ok.injEq] at h
        subst h
        exact absurd hc (List.not_mem_nil cand)
      · exact absurd h (by simp)
    · rw [Except.ok.injEq] at h
      subst h
      rcases List.mem_map.mp hc with ⟨w, hw, rfl⟩
      exact ⟨w, hw, rfl, rfl⟩

/-- Witness for C5 (amended), at the concrete expansion of the start entry on
the one-document corpus. -/
theorem c5_rare_word_bonus_condition_witness :
    ∃ w ∈ collect_words_in_range C5SA
        (searchRange C5SA (["the"] ++ (sufarrInit C5M ["the"]).words ++ [""])).1
        (searchRange C5SA (["the"] ++ (sufarrInit C5M ["the"]).words ++ [""])).2 1,
      ({ score := -1, words := ["cat"], done := true, penultimate := (false, [6]),
         lastWordIdx := some 7, numChars := 3, bonuses := none } : SEntry).words =
          (sufarrInit C5M ["the"]).words ++ [w] ∧
      ({ score := -1, words := ["cat"], done := true, penultimate := (false, [6]),
         lastWordIdx := some 7, numChars := 3, bonuses := none } : SEntry).score =
        (sufarrInit C5M ["the"]).score +
          C5M.score (match (sufarrInit C5M ["the"]).lastWordIdx with
                     | some v => lmAdvance (sufarrInit C5M ["the"]).penultimate v
                     | none => (sufarrInit C5M ["the"]).penultimate) (C5M.vocabIndex w) +
          (if 0 < 0 ∧ 4 < C5M.vocabIndex w ∧
              ¬(w.front = '<' ∨ w.front = '.' ∨ w.front = '!' ∨ w.front = '?') ∧
              w ∉ (sufarrInit C5M ["the"]).words
           then -C5M.unigramProbs (C5M.vocabIndex w) * 1 else 0) :=
  c5_rare_word_bonus_condition C5M C5SA ["the"] 1 1 0 "" (sufarrInit C5M ["the"])
    [{ score := -1, words := ["cat"], done := true, penultimate := (false, [6]),
       lastWordIdx := some 7, numChars := 3, bonuses := none }] (by decide)
    { score := -1, words := ["cat"], done := true, penultimate := (false, [6]),
      lastWordIdx := some 7, numChars := 3, bonuses := none } (by decide)

/-- Auxiliary: membership in a stable descending insertion. -/
lemma mem_insertDescBy {lt : α → α → Bool} {x z : α} {l : List α} :
    z ∈ insertDescBy lt x l ↔ z = x ∨ z ∈ l := by
  induction l with
  | nil => simp [insertDescBy]
  | cons y ys ih =>
    rw [insertDescBy]
    by_cases hlt : lt y x
    · simp [hlt]
    · simp only [if_neg hlt, List.mem_cons, ih]
      tauto

/-- Auxiliary: the entry order refines the score order. -/
lemma sentryLtB_score_le {a b : SEntry} (h : sentryLtB a b = true) : a.score ≤ b.score := by
  unfold sentryLtB at h
  split_ifs at h <;> omega

/-- Auxiliary: a failed entry-order test bounds the scores the other way. -/
lemma sentryLtB_not_score_le {a b : SEntry} (h : sentryLtB a b = false) : b.score ≤ a.score := by
  unfold sentryLtB at h
  split_ifs at h <;> omega

/-- Auxiliary: inserting into a descending-by-score list keeps it descending. -/
lemma pairwise_insertDesc_sentry (x : SEntry) (l : List SEntry)
    (h : l.Pairwise (fun a b => b.score ≤ a.score)) :
    (insertDescBy sentryLtB x l).Pairwise (fun a b => b.score ≤ a.score) := by
  induction l with
  | nil => simp [insertDescBy]
  | cons y ys ih =>
    rcases List.pairwise_cons.mp h with ⟨hy, hys⟩
    rw [insertDescBy]
    by_cases hlt : sentryLtB y x
    · rw [if_pos hlt]
      refine List.pairwise_cons.mpr ⟨?_, h⟩
      intro z hz
      rcases List.mem_cons.mp hz with rfl | hz
      · exact sentryLtB_score_le hlt
      · exact le_trans (hy z hz) (sentryLtB_score_le hlt)
    · rw [if_neg hlt]
      refine List.pairwise_cons.mpr ⟨?_, ih hys⟩
      intro z hz
      rcases mem_insertDescBy.mp hz with rfl | hz
      · exact sentryLtB_not_score_le (Bool.eq_false_iff.mpr hlt)
      · exact hy z hz

/-- Auxiliary: the Python sort produces a descending-by-score list. -/
lemma pairwise_pySortDesc_sentry (l : List SEntry) :
    (pySortDescBy sentryLtB l).Pairwise (fun a b => b.score ≤ a.score) := by
  suffices h : ∀ acc, acc.Pairwise (fun (a b : SEntry) => b.score ≤ a.score) →
      (l.foldl (fun acc x => insertDescBy sentryLtB x acc) acc).Pairwise
        (fun a b => b.score ≤ a.score) by
    exact h [] (by simp)
  induction l with
  | nil => intro acc hacc; simpa using hacc
  | cons y ys ih =>
    intro acc hacc
    exact ih _ (pairwise_insertDesc_sentry y acc hacc)

/-- C7: when the elapsed wall-clock time measured at the top of an expansion
step of `beam_search_sufarr` exceeds the latency budget (with `r + 1` of the
`length` iterations still to run, i.e. the check happens at step
`i < length`), the loop stops expanding and returns the beam carried so far
as a normal `.ok` value — never an exception — and that beam (the start
entry, or the output of the previous step's `nlargest`) is sorted descending
by score. -/
theorem c7_budget_exceeded_returns_partial (m : LM) (sa : SufArr) (sw : List String)
    (width : Nat) (rwb : ℤ) (len : Nat) (budget : ℤ) (times : Nat → ℤ) (r i : Nat)
    (pfx : String) (beam : List SEntry)
    (_hlen : i + (r + 1) = len)
    (hb : budget < times (i + 1) - times 0)
    (hreach : beam = [sufarrInit m sw] ∨
      ∃ j pfx2 b2, sufarrStep m sa sw width rwb len j pfx2 b2 = .ok beam) :
    sufarrGo m sa sw width rwb len budget times (r + 1) i pfx beam = .ok beam ∧
    beam.Pairwise (fun a b => b.score ≤ a.score) := by
  constructor
  · rw [sufarrGo, if_pos hb]
  · rcases hreach with rfl | ⟨j, p2, b2, hstep⟩
    · simp
    · unfold sufarrStep at hstep
      split at hstep
      · rw [Except.ok.injEq] at hstep
        subst hstep
        exact (pairwise_pySortDesc_sentry _).sublist (List.take_sublist _ _)
      · exact absurd hstep (by simp)

/-- Witness for C7: with integer clock readings 0, 1, 2, … and budget 0, the
very first step of a length-1 search over the concrete corpus finds the
budget exceeded and returns the start beam unchanged. -/
theorem c7_budget_exceeded_returns_partial_witness :
    sufarrGo C5M C5SA ["the"] 1 0 1 0 (fun n => (n : ℤ)) 1 0 "" [sufarrInit C5M ["the"]] =
      .ok [sufarrInit C5M ["the"]] ∧
    ([sufarrInit C5M ["the"]]).Pairwise (fun a b => b.score ≤ a.score) :=
  c7_budget_exceeded_returns_partial C5M C5SA ["the"] 1 0 1 0 (fun n => (n : ℤ)) 0 0 ""
    [sufarrInit C5M ["the"]] (by decide) (by decide) (Or.inl rfl)

/-- C10: every phrase returned by `generate_by_beamsearch_sufarr` is free of
sentinel/marker tokens — the first character of every token of every returned
phrase is not the marker character, since the final comprehension filters on
`word[0] != '<'` (even though the underlying search traverses such tokens). -/
theorem c10_no_marker_tokens_in_output (m : LM) (sa : SufArr) (ctx : List String)
    (n len : Nat) (pfx : String) (width : Nat) (rwb budget : ℤ) (times : Nat → ℤ)
    (phrases : List (List String))
    (h : generate_by_beamsearch_sufarr m sa ctx n len pfx width rwb budget times = .ok phrases) :
    ∀ p ∈ phrases, ∀ w ∈ p, ¬ (w.front = '<') := by
  unfold generate_by_beamsearch_sufarr at h
  split at h
  · exact absurd h (by simp)
  · split at h
    · exact absurd h (by simp)
    · rw [Except.ok.injEq] at h
      subst h
      intro p hp w hw
      rcases List.mem_map.mp hp with ⟨e, he, rfl⟩
      have h2 := List.of_mem_filter hw
      simpa using h2

/-- Witness for C10, on the one-document corpus whose single suggestion is
the phrase ["cat"]. -/
theorem c10_no_marker_tokens_in_output_witness : ¬ (("cat" : String).front = '<') :=
  c10_no_marker_tokens_in_output C5M C5SA ["the"] 1 1 "" 1 0 1 (fun _ => 0) [["cat"]]
    (by decide) ["cat"] (by decide) "cat" (by decide)

/-- Auxiliary: when every attempt in the catching window fails with the
generation-failed exception, the retry loop falls through to the final
uncaught call. -/
lemma retryGo_exhaust {α : Type} (fn : Nat → Except GErr α) :
    ∀ r i, (∀ j, i ≤ j → j < i + r → fn j = .error .genFailed) →
      retryGo fn r i = fn (i + r) := by
  intro r
  induction r with
  | zero => intro i _; simp [retryGo]
  | succ r ih =>
    intro i h
    have h0 : fn i = .error .genFailed := h i le_rfl (by omega)
    have h2 := ih (i + 1) (fun j hj hj2 => h j (by omega) (by omega))
    have h3 : i + 1 + r = i + (r + 1) := by omega
    rw [retryGo, h0]
    show retryGo fn r (i + 1) = fn (i + (r + 1))
    rw [h2, h3]

/-- Auxiliary: the retry loop returns the result of the first attempt that
does not fail with the generation-failed exception. -/
lemma retryGo_hit {α : Type} (fn : Nat → Except GErr α) :
    ∀ r i k, i ≤ k → k < i + r →
      (∀ j, i ≤ j → j < k → fn j = .error .genFailed) →
      fn k ≠ .error .genFailed →
      retryGo fn r i = fn k := by
  intro r
  induction r with
  | zero => intro i k h1 h2 _ _; exact absurd h2 (by omega)
  | succ r ih =>
    intro i k h1 h2 hpre hk
    rcases eq_or_lt_of_le h1 with rfl | hik
    · rcases hfn : fn i with e | v
      · rcases e with _ | s
        · exact absurd hfn hk
        · rw [retryGo, hfn]
      · rw [retryGo, hfn]
    · have h0 : fn i = .error .genFailed := hpre i le_rfl hik
      rw [retryGo, h0]
      show retryGo fn r (i + 1) = fn k
      exact ih (i + 1) k hik (by omega) (fun j hj hj2 => hpre j (by omega) hj2) hk

/-- C8: `generate_phrase` retries the whole phrase after a zero-candidate
(generation-failed) attempt; with attempts 0 … k-1 (k ≤ 10) all failing that
way, (a) an attempt k that completes all steps has its phrase and per-word
log-probabilities returned, (b) any exception other than generation-failed at
attempt k propagates immediately, and (c) when all eleven calls — the
original and ten retries — fail with generation-failed, that exception
finally reaches the caller. -/
theorem c8_retry_semantics (smax : List ℤ → List ℤ) (logQ : ℤ → ℤ) (m : LM)
    (ctx : List String) (len : Nat) (pl0 : Option (List (ℤ × String))) (t : ℤ)
    (lbm : Nat) (lba : ℤ) (pw : Option (List ℤ)) (picksFam : Nat → Nat → Nat) (k : Nat)
    (hk : k ≤ 10)
    (hpre : ∀ j, j < k →
      generate_phrase_once smax logQ m ctx len pl0 t lbm lba pw (picksFam j) =
        .error .genFailed) :
    (∀ v, generate_phrase_once smax logQ m ctx len pl0 t lbm lba pw (picksFam k) = .ok v →
       generate_phrase smax logQ m ctx len pl0 t lbm lba pw picksFam = .ok v) ∧
    (∀ s, generate_phrase_once smax logQ m ctx len pl0 t lbm lba pw (picksFam k) =
        .error (.other s) →
       generate_phrase smax logQ m ctx len pl0 t lbm lba pw picksFam = .error (.other s)) ∧
    (k = 10 →
      generate_phrase_once smax logQ m ctx len pl0 t lbm lba pw (picksFam 10) =
        .error .genFailed →
      generate_phrase smax logQ m ctx len pl0 t lbm lba pw picksFam = .error .genFailed) := by
  have hgp : generate_phrase smax logQ m ctx len pl0 t lbm lba pw picksFam =
      retryGo (fun attempt =>
        generate_phrase_once smax logQ m ctx len pl0 t lbm lba pw (picksFam attempt)) 10 0 := rfl
  refine ⟨?_, ?_, ?_⟩
  · intro v hv
    rcases eq_or_lt_of_le hk with rfl | hlt
    · rw [hgp, retryGo_exhaust _ 10 0 (fun j _ hj => hpre j (by omega))]
      exact hv
    · rw [hgp, retryGo_hit _ 10 0 k (Nat.zero_le k) (by omega)
        (fun j _ hj => hpre j hj) (by rw [hv]; simp)]
      exact hv
  · intro s hs
    rcases eq_or_lt_of_le hk with rfl | hlt
    · rw [hgp, retryGo_exhaust _ 10 0 (fun j _ hj => hpre j (by omega))]
      exact hs
    · rw [hgp, retryGo_hit _ 10 0 k (Nat.zero_le k) (by omega)
        (fun j _ hj => hpre j hj) (by rw [hs]; simp)]
      exact hs
  · intro hk10 hfail
    subst hk10
    rw [hgp, retryGo_exhaust _ 10 0 (fun j _ hj => hpre j (by omega))]
    exact hfail

/-- Witness for C8: on `C8M` the first attempt dead-ends after picking "b";
the second attempt picks "c" then "d" and its phrase and log-probabilities
are returned. -/
theorem c8_retry_semantics_witness :
    generate_phrase id id C8M ["a"] 2 none 1 6 0 none c8Picks = .ok (["c", "d"], [0, 0]) :=
  (c8_retry_semantics id id C8M ["a"] 2 none 1 6 0 none c8Picks 1 (by omega)
    (fun j hj => by
      have hj0 : j = 0 := by omega
      subst hj0
      decide)).1 (["c", "d"], [0, 0]) (by decide)

/-- Auxiliary: inserting permutes. -/
lemma perm_insertDescBy (lt : α → α → Bool) (x : α) (l : List α) :
    List.Perm (insertDescBy lt x l) (x :: l) := by
  induction l with
  | nil => rfl
  | cons y ys ih =>
    rw [insertDescBy]
    by_cases hlt : lt y x
    · rw [if_pos hlt]
    · rw [if_neg hlt]
      exact (ih.cons y).trans (List.Perm.swap x y ys)

/-- Auxiliary: the Python sort is a permutation. -/
lemma perm_pySortDescBy (lt : α → α → Bool) (l : List α) : List.Perm (pySortDescBy lt l) l := by
  suffices h : ∀ acc : List α,
      List.Perm (l.foldl (fun acc x => insertDescBy lt x acc) acc) (l.reverse ++ acc) by
    simpa using (h []).trans (by simp)
  induction l with
  | nil => intro acc; simp
  | cons y ys ih =>
    intro acc
    have h1 : (y :: ys).foldl (fun acc x => insertDescBy lt x acc) acc
        = ys.foldl (fun acc x => insertDescBy lt x acc) (insertDescBy lt y acc) := rfl
    rw [h1]
    refine (ih _).trans ?_
    refine (List.Perm.append_left ys.reverse (perm_insertDescBy lt y acc)).trans ?_
    simp [List.reverse_cons, List.append_assoc]

/-- Auxiliary: membership in the dedup worker. -/
lemma mem_firstDedupGo (x : String) : ∀ (l seen : List String),
    x ∈ firstDedupGo seen l ↔ x ∈ l ∧ x ∉ seen := by
  intro l
  induction l with
  | nil => intro seen; simp [firstDedupGo]
  | cons y ys ih =>
    intro seen
    rw [firstDedupGo]
    by_cases hy : y ∈ seen
    · rw [if_pos hy, ih]
      constructor
      · rintro ⟨h1, h2⟩; exact ⟨List.mem_cons_of_mem y h1, h2⟩
      · rintro ⟨h1, h2⟩
        rcases List.mem_cons.mp h1 with rfl | h1
        · exact absurd hy h2
        · exact ⟨h1, h2⟩
    · rw [if_neg hy]
      simp only [List.mem_cons, ih, List.mem_append, List.mem_singleton]
      by_cases hxy : x = y
      · simp [hxy, hy]
      · tauto

/-- Auxiliary: `firstDedup` keeps exactly the elements of its input. -/
lemma mem_firstDedup {x : String} {l : List String} : x ∈ firstDedup l ↔ x ∈ l := by
  rw [firstDedup, mem_firstDedupGo]
  simp

/-- Auxiliary: the dedup worker never repeats an element. -/
lemma nodup_firstDedupGo : ∀ (l seen : List String), (firstDedupGo seen l).Nodup := by
  intro l
  induction l with
  | nil => intro seen; simp [firstDedupGo]
  | cons y ys ih =>
    intro seen
    rw [firstDedupGo]
    by_cases hy : y ∈ seen
    · rw [if_pos hy]; exact ih seen
    · rw [if_neg hy]
      refine List.nodup_cons.mpr ⟨?_, ih _⟩
      intro hc
      have h2 := (mem_firstDedupGo y ys (seen ++ [y])).mp hc
      simp at h2

/-- Auxiliary: `firstDedup` has no duplicates. -/
lemma nodup_firstDedup (l : List String) : (firstDedup l).Nodup := nodup_firstDedupGo l []

/-- Auxiliary: the length of `firstDedup` is the number of distinct elements. -/
lemma firstDedup_length_eq (l : List String) : (firstDedup l).length = l.toFinset.card := by
  have h1 : (firstDedup l).toFinset = l.toFinset := by
    ext x
    simp [List.mem_toFinset, mem_firstDedup]
  calc (firstDedup l).length = (firstDedup l).toFinset.card :=
        (List.toFinset_card_of_nodup (nodup_firstDedup l)).symm
    _ = l.toFinset.card := by rw [h1]

/-- Auxiliary: the diversity sort key order is irreflexive. -/
lemma diversityKeyLtB_irrefl (fw : List String) (a : SEntry) : diversityKeyLtB fw a a = false := by
  unfold diversityKeyLtB
  simp

/-- Auxiliary: the diversity sort key order is asymmetric. -/
lemma diversityKeyLtB_asymm (fw : List String) (a b : SEntry)
    (h : diversityKeyLtB fw a b = true) : diversityKeyLtB fw b a = false := by
  unfold diversityKeyLtB at h ⊢
  by_cases hka : entFirstWord a ∈ fw <;> by_cases hkb : entFirstWord b ∈ fw <;>
    simp [hka, hkb] at h ⊢ <;> omega

/-- Auxiliary: the diversity sort key order is transitive. -/
lemma diversityKeyLtB_trans (fw : List String) (a b c : SEntry)
    (hab : diversityKeyLtB fw a b = true) (hbc : diversityKeyLtB fw b c = true) :
    diversityKeyLtB fw a c = true := by
  unfold diversityKeyLtB at hab hbc ⊢
  by_cases hka : entFirstWord a ∈ fw <;> by_cases hkb : entFirstWord b ∈ fw <;>
    by_cases hkc : entFirstWord c ∈ fw <;>
    simp [hka, hkb, hkc] at hab hbc ⊢ <;> omega

/-- Auxiliary: descending insertion keeps later elements not above earlier
ones, for any asymmetric transitive order. -/
lemma pairwise_insertDescBy_not_lt {lt : α → α → Bool}
    (hasym : ∀ a b, lt a b = true → lt b a = false)
    (htrans : ∀ a b c, lt a b = true → lt b c = true → lt a c = true)
    (x : α) (l : List α) (h : l.Pairwise (fun a b => lt a b = false)) :
    (insertDescBy lt x l).Pairwise (fun a b => lt a b = false) := by
  induction l with
  | nil => simp [insertDescBy]
  | cons y ys ih =>
    rcases List.pairwise_cons.mp h with ⟨hy, hys⟩
    rw [insertDescBy]
    by_cases hlt : lt y x
    · rw [if_pos hlt]
      refine List.pairwise_cons.mpr ⟨?_, h⟩
      intro z hz
      rcases List.mem_cons.mp hz with rfl | hz
      · exact hasym _ _ hlt
      · rcases hxz : lt x z with _ | _
        · rfl
        · exact absurd (hy z hz) (by rw [htrans _ _ _ hlt hxz]; simp)
    · rw [if_neg hlt]
      refine List.pairwise_cons.mpr ⟨?_, ih hys⟩
      intro z hz
      rcases mem_insertDescBy.mp hz with rfl | hz
      · exact Bool.eq_false_iff.mpr hlt
      · exact hy z hz

/-- Auxiliary: the Python sort is descending for any asymmetric transitive
order. -/
lemma pairwise_pySortDescBy_not_lt {lt : α → α → Bool}
    (hasym : ∀ a b, lt a b = true → lt b a = false)
    (htrans : ∀ a b c, lt a b = true → lt b c = true → lt a c = true)
    (l : List α) : (pySortDescBy lt l).Pairwise (fun a b => lt a b = false) := by
  suffices h : ∀ acc : List α, acc.Pairwise (fun a b => lt a b = false) →
      (l.foldl (fun acc x => insertDescBy lt x acc) acc).Pairwise (fun a b => lt a b = false) by
    exact h [] (by simp)
  induction l with
  | nil => intro acc hacc; simpa using hacc
  | cons y ys ih =>
    intro acc hacc
    exact ih _ (pairwise_insertDescBy_not_lt hasym htrans y acc hacc)

/-- Auxiliary: the head of the Python descending sort is maximal. -/
lemma pySortDescBy_head_max {lt : α → α → Bool}
    (hasym : ∀ a b, lt a b = true → lt b a = false)
    (htrans : ∀ a b c, lt a b = true → lt b c = true → lt a c = true)
    (hirr : ∀ a, lt a a = false)
    (l : List α) (best : α) (rest : List α)
    (hs : pySortDescBy lt l = best :: rest) :
    ∀ z ∈ l, lt best z = false := by
  intro z hz
  have hzin : z ∈ best :: rest := by
    rw [← hs]
    exact ((perm_pySortDescBy lt l).symm.mem_iff).mp hz
  rcases List.mem_cons.mp hzin with rfl | hzr
  · exact hirr z
  · have hp := pairwise_pySortDescBy_not_lt hasym htrans l
    rw [hs] at hp
    exact (List.pairwise_cons.mp hp).1 z hzr

/-- Auxiliary invariant of the diversity selection loop: starting from a
non-empty prefix with pairwise-distinct first words and at least `n` distinct
first words among the prefix and the remaining entries, the loop returns a
list whose first words are pairwise distinct and whose head is the head of
the prefix. -/
lemma diverseGo_spec (n : Nat) : ∀ fuel (ents result : List SEntry) (picked : List SEntry),
    fuel = ents.length →
    result ≠ [] →
    (result.map entFirstWord).Nodup →
    n ≤ ((result ++ ents).map entFirstWord).toFinset.card →
    diverseGo n fuel ents result (result.map entFirstWord) = .ok picked →
    (picked.map entFirstWord).Nodup ∧ picked.head? = result.head? := by
  intro fuel
  induction fuel with
  | zero =>
    intro ents result picked hf hne hnd hcard hsel
    rw [diverseGo, Except.ok.injEq] at hsel
    subst hsel
    exact ⟨hnd, rfl⟩
  | succ fuel ih =>
    intro ents result picked hf hne hnd hcard hsel
    rw [diverseGo] at hsel
    by_cases hcond : result.length < n ∧ ents ≠ []
    · rw [if_pos hcond] at hsel
      by_cases hany : ents.any (fun e => e.words.isEmpty)
      · rw [if_pos hany] at hsel
        exact absurd hsel (by simp)
      · rw [if_neg hany] at hsel
        rcases hsort : pySortDescBy (diversityKeyLtB (result.map entFirstWord)) ents
          with _ | ⟨best, others⟩
        · simp only [hsort, Except.ok.injEq] at hsel
          subst hsel
          exact ⟨hnd, rfl⟩
        · simp only [hsort] at hsel
          have hperm : List.Perm (best :: others) ents := by
            rw [← hsort]
            exact perm_pySortDescBy _ _
          have hlen2 : others.length = fuel := by
            have hl := hperm.length_eq
            simp only [List.length_cons] at hl
            omega
          have hex : ∃ e ∈ ents, entFirstWord e ∉ result.map entFirstWord := by
            by_contra hall
            push_neg at hall
            have hsub : ((result ++ ents).map entFirstWord).toFinset ⊆
                (result.map entFirstWord).toFinset := by
              intro x hx
              rw [List.mem_toFinset, List.map_append, List.mem_append] at hx
              rcases hx with hx | hx
              · rw [List.mem_toFinset]
                exact hx
              · rcases List.mem_map.mp hx with ⟨e, he, rfl⟩
                rw [List.mem_toFinset]
                exact hall e he
            have hcard2 := Finset.card_le_card hsub
            have hcard3 := List.toFinset_card_le (l := result.map entFirstWord)
            have hcard4 : (result.map entFirstWord).length = result.length := List.length_map _ _
            omega
          rcases hex with ⟨e, he, hnotin⟩
          have hbe := pySortDescBy_head_max (diversityKeyLtB_asymm (result.map entFirstWord))
            (diversityKeyLtB_trans (result.map entFirstWord))
            (diversityKeyLtB_irrefl (result.map entFirstWord)) ents best others hsort e he
          have hbest_not : entFirstWord best ∉ result.map entFirstWord := by
            intro hbin
            have hkey : diversityKeyLtB (result.map entFirstWord) best e = true := by
              unfold diversityKeyLtB
              simp [hbin, hnotin]
            rw [hkey] at hbe
            exact absurd hbe (by simp)
          have hmapapp : (result ++ [best]).map entFirstWord =
              result.map entFirstWord ++ [entFirstWord best] := by
            rw [List.map_append]
            rfl
          have hnd2 : ((result ++ [best]).map entFirstWord).Nodup := by
            rw [hmapapp]
            refine List.Nodup.append hnd (by simp) ?_
            intro x hx hx2
            rcases List.mem_singleton.mp hx2 with rfl
            exact hbest_not hx
          have hcard5 : n ≤ (((result ++ [best]) ++ others).map entFirstWord).toFinset.card := by
            have hp2 : List.Perm ((result ++ [best]) ++ others) (result ++ ents) := by
              rw [List.append_assoc]
              exact List.Perm.append_left result hperm
            have htf : (((result ++ [best]) ++ others).map entFirstWord).toFinset =
                ((result ++ ents).map entFirstWord).toFinset := by
              ext x
              simp only [List.mem_toFinset]
              exact (hp2.map entFirstWord).mem_iff
            rw [htf]
            exact hcard
          rw [← hmapapp] at hsel
          have hihres := ih others (result ++ [best]) picked hlen2.symm (by simp)
            hnd2 hcard5 hsel
          rcases hihres with ⟨h1, h2⟩
          refine ⟨h1, ?_⟩
          rw [h2]
          rcases result with _ | ⟨r0, rtl⟩
          · exact absurd rfl hne
          · rfl
    · rw [if_neg hcond, Except.ok.injEq] at hsel
      subst hsel
      exact ⟨hnd, rfl⟩

/-- C6: the diversity-aware selection of `generate_by_beamsearch_sufarr`
takes the best beam entry first and thereafter prefers unused first words, so
when at least `n` distinct first generated words exist among all beam
entries, no two selected results share a first word (and the first pick is
the head of the descending-sorted beam). -/
theorem c6_diverse_first_words_distinct (n : Nat) (ents picked : List SEntry)
    (hn : n ≤ (firstDedup (ents.map entFirstWord)).length)
    (hsel : diverseSelect n ents = .ok picked) :
    (picked.map entFirstWord).Nodup ∧ picked.head? = ents.head? := by
  rcases ents with _ | ⟨e0, rest⟩
  · exact absurd hsel (by simp [diverseSelect])
  · simp only [diverseSelect] at hsel
    by_cases h0 : e0.words.isEmpty
    · rw [if_pos h0] at hsel
      exact absurd hsel (by simp)
    · rw [if_neg h0] at hsel
      have hcard : n ≤ (([e0] ++ rest).map entFirstWord).toFinset.card := by
        rw [firstDedup_length_eq] at hn
        simpa using hn
      have hres := diverseGo_spec n rest.length rest [e0] picked rfl (by simp) (by simp)
        hcard hsel
      exact ⟨hres.1, hres.2⟩

/-- Witness for C6: among three entries with first words "u", "u", "v" and
scores 10, 9, 1, selecting two yields first words "u", "v". -/
theorem c6_diverse_first_words_distinct_witness :
    (([c6Ents.headD default, c6Ents.getD 2 default].map entFirstWord)).Nodup ∧
    ([c6Ents.headD default, c6Ents.getD 2 default] : List SEntry).head? = c6Ents.head? :=
  c6_diverse_first_words_distinct 2 c6Ents [c6Ents.headD default, c6Ents.getD 2 default] (by decide) (by decide)

/-- Auxiliary: a defaulted read is an element or the default. -/
lemma getD_mem_or_eq {α : Type u} (l : List α) (i : Nat) (d : α) :
    l.getD i d ∈ l ∨ l.getD i d = d := by
  by_cases h : i < l.length
  · exact Or.inl (by rw [List.getD_eq_getElem l d h]; exact List.getElem_mem h)
  · exact Or.inr (List.getD_eq_default l d (le_of_not_lt h))

/-- Auxiliary: sift-down only rearranges elements or writes the new item. -/
lemma mem_pySiftdown {lt : α → α → Bool} {s : Nat} {n x : α} :
    ∀ fuel (l : List α) (pos : Nat), x ∈ pySiftdown lt s n fuel l pos → x ∈ l ∨ x = n := by
  intro fuel
  induction fuel with
  | zero =>
    intro l pos h
    exact List.mem_or_eq_of_mem_set h
  | succ fuel ih =>
    intro l pos h
    rw [pySiftdown] at h
    by_cases h1 : s < pos
    · rw [if_pos h1] at h
      by_cases h2 : lt n (l.getD ((pos - 1) / 2) n)
      · rw [if_pos h2] at h
        rcases ih _ _ h with h3 | h3
        · rcases List.mem_or_eq_of_mem_set h3 with h4 | h4
          · exact Or.inl h4
          · rcases getD_mem_or_eq l ((pos - 1) / 2) n with h5 | h5
            · exact Or.inl (h4 ▸ h5)
            · exact Or.inr (h4.trans h5)
        · exact Or.inr h3
      · rw [if_neg h2] at h
        exact List.mem_or_eq_of_mem_set h
    · rw [if_neg h1] at h
      exact List.mem_or_eq_of_mem_set h

/-- Auxiliary: the sift-up descent only rearranges elements or writes the new
item. -/
lemma mem_pySiftupLoop {lt : α → α → Bool} {n x : α} :
    ∀ fuel (l : List α) (pos : Nat), x ∈ (pySiftupLoop lt n fuel l pos).1 → x ∈ l ∨ x = n := by
  intro fuel
  induction fuel with
  | zero => intro l pos h; exact Or.inl h
  | succ fuel ih =>
    intro l pos h
    rw [pySiftupLoop] at h
    by_cases h1 : 2 * pos + 1 < l.length
    · rw [if_pos h1] at h
      rcases ih _ _ h with h3 | h3
      · rcases List.mem_or_eq_of_mem_set h3 with h4 | h4
        · exact Or.inl h4
        · rcases getD_mem_or_eq l _ n with h5 | h5
          · exact Or.inl (h4 ▸ h5)
          · exact Or.inr (h4.trans h5)
      · exact Or.inr h3
    · rw [if_neg h1] at h
      exact Or.inl h

/-- Auxiliary: sift-up permutes within the heap. -/
lemma mem_pySiftup {lt : α → α → Bool} {x : α} (l : List α) (pos : Nat)
    (h : x ∈ pySiftup lt l pos) : x ∈ l := by
  rw [pySiftup] at h
  rcases hg : l.get? pos with _ | newitem
  · rw [hg] at h
    exact h
  · rw [hg] at h
    have hni : newitem ∈ l := List.get?_mem hg
    rcases mem_pySiftdown _ _ _ h with h1 | h1
    · rcases List.mem_or_eq_of_mem_set h1 with h2 | h2
      · rcases mem_pySiftupLoop _ _ _ h2 with h3 | h3
        · exact h3
        · exact h3 ▸ hni
      · exact h2 ▸ hni
    · exact h1 ▸ hni

/-- Auxiliary: heapify keeps only elements of the input. -/
lemma mem_pyHeapifyGo {lt : α → α → Bool} {x : α} :
    ∀ (k : Nat) (l : List α), x ∈ pyHeapifyGo lt k l → x ∈ l := by
  intro k
  induction k with
  | zero => intro l h; exact h
  | succ k ih =>
    intro l h
    rw [pyHeapifyGo] at h
    exact mem_pySiftup _ _ (ih _ h)

/-- Auxiliary: heapify membership. -/
lemma mem_pyHeapify {lt : α → α → Bool} {x : α} (l : List α) (h : x ∈ pyHeapify lt l) :
    x ∈ l :=
  mem_pyHeapifyGo _ _ h

/-- Auxiliary: heap-replace keeps only old elements or the inserted item. -/
lemma mem_pyHeapreplace {lt : α → α → Bool} {x item : α} (l : List α)
    (h : x ∈ pyHeapreplace lt l item) : x ∈ l ∨ x = item := by
  rw [pyHeapreplace] at h
  exact List.mem_or_eq_of_mem_set (mem_pySiftup _ _ h)

/-- Auxiliary: the beam push discipline keeps only old or pushed entries. -/
lemma mem_heapPush {w : Nat} {x y : PEntry} (acc : List PEntry)
    (h : x ∈ heapPush w acc y) : x ∈ acc ∨ x = y := by
  rw [heapPush] at h
  by_cases h1 : acc.length = w
  · rw [if_pos h1] at h
    exact mem_pyHeapreplace _ h
  · rw [if_neg h1] at h
    by_cases h2 : (acc ++ [y]).length = w
    · rw [if_pos h2] at h
      have h3 := mem_pyHeapify _ h
      rcases List.mem_append.mp h3 with h4 | h4
      · exact Or.inl h4
      · exact Or.inr (List.mem_singleton.mp h4)
    · rw [if_neg h2] at h
      rcases List.mem_append.mp h with h4 | h4
      · exact Or.inl h4
      · exact Or.inr (List.mem_singleton.mp h4)

/-- Auxiliary: folding pushes keeps only initial or pushed entries. -/
lemma mem_foldl_heapPush {w : Nat} {x : PEntry} :
    ∀ (items acc : List PEntry), x ∈ items.foldl (heapPush w) acc → x ∈ acc ∨ x ∈ items := by
  intro items
  induction items with
  | nil => intro acc h; exact Or.inl h
  | cons y ys ih =>
    intro acc h
    rcases ih _ h with h1 | h1
    · rcases mem_heapPush _ h1 with h2 | h2
      · exact Or.inl h2
      · exact Or.inr (h2 ▸ List.mem_cons_self y ys)
    · exact Or.inr (List.mem_cons_of_mem y h1)

/-- Auxiliary: one width-bounded step produces a subset of the unbounded
step's candidates. -/
lemma bspStep_subset (m : LM) (pl : Option (List (ℤ × String))) (w len i : Nat)
    (beam : List PEntry) :
    ∀ x ∈ bspStep m pl w len i beam, x ∈ exhaustiveStep m pl len i beam := by
  intro x hx
  rw [bspStep] at hx
  rw [exhaustiveStep]
  rcases mem_foldl_heapPush _ _ hx with h | h
  · exact List.mem_append.mpr (Or.inl h)
  · exact List.mem_append.mpr (Or.inr h)

/-- Auxiliary: the unbounded step is monotone in the beam. -/
lemma exhaustiveStep_mono (m : LM) (pl : Option (List (ℤ × String))) (len i : Nat)
    {B B' : List PEntry} (hsub : ∀ x ∈ B, x ∈ B') :
    ∀ x ∈ exhaustiveStep m pl len i B, x ∈ exhaustiveStep m pl len i B' := by
  intro x hx
  rw [exhaustiveStep] at hx ⊢
  rcases List.mem_append.mp hx with h | h
  · have h2 := List.mem_filter.mp h
    exact List.mem_append.mpr (Or.inl (List.mem_filter.mpr ⟨hsub _ h2.1, h2.2⟩))
  · rcases List.mem_flatMap.mp h with ⟨e, he, hxe⟩
    exact List.mem_append.mpr (Or.inr (List.mem_flatMap.mpr ⟨e, hsub _ he, hxe⟩))

/-- Auxiliary: every entry the width-bounded loop carries is carried by the
unbounded loop. -/
lemma bspLoop_subset (m : LM) (pl : Option (List (ℤ × String))) (w len : Nat) :
    ∀ (r i : Nat) (B B' : List PEntry), (∀ x ∈ B, x ∈ B') →
      ∀ x ∈ bspLoop m pl w len r i B, x ∈ exhaustiveLoop m pl len r i B' := by
  intro r
  induction r with
  | zero => intro i B B' hsub x hx; exact hsub x hx
  | succ r ih =>
    intro i B B' hsub x hx
    rw [bspLoop] at hx
    rw [exhaustiveLoop]
    refine ih (i + 1) _ _ ?_ x hx
    intro y hy
    exact exhaustiveStep_mono m pl len i hsub y (bspStep_subset m pl w len i B y hy)

/-- C4 (amended): beam search is not monotonic between two finite widths (see
the counterexample), but it is dominated by the unbounded beam: every entry
returned by `beam_search_phrases` at any width is also a final entry of the
same search with an unbounded beam, so in particular no finite width finds a
better score than the exhaustive expansion. -/
theorem c4_beam_subset_of_exhaustive (m : LM) (sw : List String) (w len : Nat) (pl : Option (List (ℤ × String)))
    (e : PEntry) (he : e ∈ beam_search_phrases m sw w len pl) :
    e ∈ exhaustive_beam_search m sw len pl := by
  rw [beam_search_phrases] at he
  have h1 : e ∈ bspLoop m pl w len len 0 [bspInit m sw] :=
    (perm_pySortDescBy pentryLtB _).mem_iff.mp he
  rw [exhaustive_beam_search]
  exact bspLoop_subset m pl w len len 0 _ _ (fun x hx => hx) e h1

/-- Witness for C4 (amended): the single width-1 result on `C4M` is among the
unbounded-beam results. -/
theorem c4_beam_subset_of_exhaustive_witness :
    ({ score := -30, words := ["b", "c", "f"], done := true, penultimate := (false, [0, 2, 3]),
       lastWordIdx := 6, numChars := 5 } : PEntry) ∈ exhaustive_beam_search C4M ["z"] 4 none :=
  c4_beam_subset_of_exhaustive C4M ["z"] 1 4 none _ (by decide)

/-- Auxiliary: `_next_elt_le` returns the first index in the range whose
value is at most the criterion, or the range end. -/
lemma nextEltLeGo_spec (arr : List Nat) (c fin : Nat) :
    ∀ k s, k = fin - s →
      (nextEltLeGo arr c fin k s = fin ∧
        ∀ j, s ≤ j → j < fin → ¬ (arr.getD j 0 ≤ c)) ∨
      (s ≤ nextEltLeGo arr c fin k s ∧ nextEltLeGo arr c fin k s < fin ∧
        arr.getD (nextEltLeGo arr c fin k s) 0 ≤ c ∧
        ∀ j, s ≤ j → j < nextEltLeGo arr c fin k s → ¬ (arr.getD j 0 ≤ c)) := by
  intro k
  induction k with
  | zero =>
    intro s hk
    refine Or.inl ⟨rfl, ?_⟩
    intro j h1 h2
    omega
  | succ k ih =>
    intro s hk
    rw [nextEltLeGo]
    by_cases hP : arr.getD s 0 ≤ c
    · rw [if_pos hP]
      exact Or.inr ⟨le_rfl, by omega, hP, fun j h1 h2 => absurd h1 (by omega)⟩
    · rw [if_neg hP]
      rcases ih (s + 1) (by omega) with ⟨h1, h2⟩ | ⟨h1, h2, h3, h4⟩
      · refine Or.inl ⟨h1, ?_⟩
        intro j hj1 hj2
        rcases eq_or_lt_of_le hj1 with rfl | hj3
        · exact hP
        · exact h2 j hj3 hj2
      · refine Or.inr ⟨by omega, h2, h3, ?_⟩
        intro j hj1 hj2
        rcases eq_or_lt_of_le hj1 with rfl | hj3
        · exact hP
        · exact h4 j hj3 hj2

/-- Auxiliary: the `_next_elt_le` characterization at the standard fuel. -/
lemma nextEltLe_spec (arr : List Nat) (c s fin : Nat) :
    (nextEltLe arr c s fin = fin ∧
      ∀ j, s ≤ j → j < fin → ¬ (arr.getD j 0 ≤ c)) ∨
    (s ≤ nextEltLe arr c s fin ∧ nextEltLe arr c s fin < fin ∧
      arr.getD (nextEltLe arr c s fin) 0 ≤ c ∧
      ∀ j, s ≤ j → j < nextEltLe arr c s fin → ¬ (arr.getD j 0 ≤ c)) :=
  nextEltLeGo_spec arr c fin (fin - s) s rfl

/-- Auxiliary: a stretch with no token change at the depth is constant. -/
lemma wordAt_const_upto (sa : SufArr) (d s b : Nat)
    (h : ∀ j, s ≤ j → j < b → wordAt sa j d = wordAt sa (j + 1) d) :
    ∀ p, s ≤ p → p ≤ b → wordAt sa p d = wordAt sa s d := by
  have hq : ∀ q, s + q ≤ b → wordAt sa (s + q) d = wordAt sa s d := by
    intro q
    induction q with
    | zero => intro _; rfl
    | succ q ih =>
      intro hqb
      have h1 : wordAt sa (s + q) d = wordAt sa (s + q + 1) d := h (s + q) (by omega) (by omega)
      rw [show s + (q + 1) = s + q + 1 by omega, ← h1]
      exact ih (by omega)
  intro p h1 h2
  have h3 : p = s + (p - s) := by omega
  rw [h3]
  exact hq (p - s) (by omega)

/-- Auxiliary: already-seen elements contribute nothing to the dedup. -/
lemma firstDedupGo_skip : ∀ (l l2 seen : List String), (∀ y ∈ l, y ∈ seen) →
    firstDedupGo seen (l ++ l2) = firstDedupGo seen l2 := by
  intro l
  induction l with
  | nil => intro l2 seen _; rfl
  | cons y ys ih =>
    intro l2 seen hall
    rw [List.cons_append, firstDedupGo, if_pos (hall y (List.mem_cons_self y ys))]
    exact ih l2 seen (fun z hz => hall z (List.mem_cons_of_mem y hz))

/-- Auxiliary: the dedup worker only depends on which elements have been
seen. -/
lemma firstDedupGo_congr : ∀ (l s1 s2 : List String),
    (∀ a ∈ l, (a ∈ s1 ↔ a ∈ s2)) → firstDedupGo s1 l = firstDedupGo s2 l := by
  intro l
  induction l with
  | nil => intro s1 s2 _; rfl
  | cons y ys ih =>
    intro s1 s2 hiff
    rw [firstDedupGo, firstDedupGo]
    by_cases hy : y ∈ s1
    · rw [if_pos hy, if_pos ((hiff y (List.mem_cons_self y ys)).mp hy)]
      exact ih s1 s2 (fun a ha => hiff a (List.mem_cons_of_mem y ha))
    · rw [if_neg hy, if_neg (fun hc => hy ((hiff y (List.mem_cons_self y ys)).mpr hc))]
      have h2 := ih (s1 ++ [y]) (s2 ++ [y]) (fun a ha => by
        simp only [List.mem_append, List.mem_singleton]
        rw [hiff a (List.mem_cons_of_mem y ha)])
      rw [h2]

/-- Auxiliary: the dedup of a non-empty constant list is a singleton. -/
lemma firstDedup_all_eq (l : List String) (x : String) (hne : l ≠ [])
    (hall : ∀ y ∈ l, y = x) : firstDedup l = [x] := by
  rcases l with _ | ⟨y, ys⟩
  · exact absurd rfl hne
  · have hy : y = x := hall y (List.mem_cons_self y ys)
    subst hy
    rw [firstDedup, firstDedupGo, if_neg (List.not_mem_nil y)]
    have h2 : firstDedupGo ([] ++ [y]) (ys ++ []) = firstDedupGo ([] ++ [y]) [] :=
      firstDedupGo_skip ys [] ([] ++ [y]) (fun z hz => by
        simp [hall z (List.mem_cons_of_mem y hz)])
    rw [List.append_nil] at h2
    rw [h2]
    rfl

/-- Auxiliary: peeling a constant non-empty block off the front of a dedup
when its value does not recur. -/
lemma firstDedup_append_const (l1 l2 : List String) (x : String) (hne : l1 ≠ [])
    (hall : ∀ y ∈ l1, y = x) (hnot : x ∉ l2) :
    firstDedup (l1 ++ l2) = x :: firstDedup l2 := by
  rcases l1 with _ | ⟨y, ys⟩
  · exact absurd rfl hne
  · have hy : y = x := hall y (List.mem_cons_self y ys)
    subst hy
    rw [List.cons_append, firstDedup, firstDedupGo, if_neg (List.not_mem_nil y)]
    have h2 : firstDedupGo ([] ++ [y]) (ys ++ l2) = firstDedupGo ([] ++ [y]) l2 :=
      firstDedupGo_skip ys l2 ([] ++ [y]) (fun z hz => by
        simp [hall z (List.mem_cons_of_mem y hz)])
    rw [h2]
    have h3 : firstDedupGo ([] ++ [y]) l2 = firstDedupGo [] l2 :=
      firstDedupGo_congr l2 ([] ++ [y]) [] (fun a ha => by
        simp only [List.nil_append, List.mem_singleton, List.not_mem_nil, iff_false]
        intro hc
        exact hnot (hc ▸ ha))
    rw [h3]
    rfl


/-- Auxiliary: the jump loop of `collect_words_in_range` computes the
first-occurrence dedup of the tokens at the depth over the rest of the
range, under the shared-prefix hypotheses. -/
lemma cwir_main (sa : SufArr) (d lo hi : Nat)
    (Hsem : ∀ j, lo ≤ j → j + 1 < hi →
      (sa.lcp.getD j 0 ≤ d ↔ wordAt sa j d ≠ wordAt sa (j + 1) d))
    (Hconv : ∀ j k, lo ≤ j → j ≤ k → k < hi → wordAt sa j d = wordAt sa k d →
      ∀ p, j ≤ p → p ≤ k → wordAt sa p d = wordAt sa j d) :
    ∀ fuel s, lo ≤ s → s < hi → hi - s ≤ fuel + 1 →
      wordAt sa s d :: cwirLoop sa d hi fuel s =
        firstDedup ((List.range' s (hi - s)).map (fun p => wordAt sa p d)) := by
  intro fuel
  induction fuel with
  | zero =>
    intro s hlo hshi hfuel
    have h1 : hi - s = 1 := by omega
    rw [h1, List.range'_one]
    rw [show cwirLoop sa d hi 0 s = [] from rfl]
    simp [firstDedup, firstDedupGo]
  | succ fuel ih =>
    intro s hlo hshi hfuel
    rcases nextEltLe_spec sa.lcp d s (hi - 1) with ⟨hb, hnone⟩ | ⟨hb1, hb2, hbP, hbnone⟩
    · have hloop : cwirLoop sa d hi (fuel + 1) s = [] := by
        rw [cwirLoop, if_pos hb]
      rw [hloop]
      have hjf : ∀ j, s ≤ j → j < hi - 1 → wordAt sa j d = wordAt sa (j + 1) d := by
        intro j h1 h2
        by_contra hne
        exact hnone j h1 h2 ((Hsem j (le_trans hlo h1) (by omega)).mpr hne)
      have hconst := wordAt_const_upto sa d s (hi - 1) hjf
      symm
      apply firstDedup_all_eq
      · have h2 : (List.range' s (hi - s)).length = hi - s := List.length_range' s 1 (hi - s)
        intro hc
        rw [List.map_eq_nil_iff] at hc
        rw [hc] at h2
        simp at h2
        omega
      · intro y hy
        rcases List.mem_map.mp hy with ⟨p, hp, rfl⟩
        rcases List.mem_range'_1.mp hp with ⟨hp1, hp2⟩
        exact hconst p hp1 (by omega)
    · have hbne : nextEltLe sa.lcp d s (hi - 1) ≠ hi - 1 := by omega
      have hloop : cwirLoop sa d hi (fuel + 1) s =
          wordAt sa (nextEltLe sa.lcp d s (hi - 1) + 1) d ::
            cwirLoop sa d hi fuel (nextEltLe sa.lcp d s (hi - 1) + 1) := by
        rw [cwirLoop, if_neg hbne]
      set b := nextEltLe sa.lcp d s (hi - 1) with hbdef
      have hb3 : b + 1 < hi := by omega
      have hjf : ∀ j, s ≤ j → j < b → wordAt sa j d = wordAt sa (j + 1) d := by
        intro j h1 h2
        by_contra hne
        exact hbnone j h1 h2 ((Hsem j (le_trans hlo h1) (by omega)).mpr hne)
      have hconst := wordAt_const_upto sa d s b hjf
      have hneq : wordAt sa b d ≠ wordAt sa (b + 1) d :=
        (Hsem b (by omega) hb3).mp hbP
      have hTsb : wordAt sa b d = wordAt sa s d := hconst b hb1 le_rfl
      have hTsne : wordAt sa s d ≠ wordAt sa (b + 1) d := by
        rw [← hTsb]
        exact hneq
      have hnotin : wordAt sa s d ∉
          (List.range' (b + 1) (hi - (b + 1))).map (fun p => wordAt sa p d) := by
        intro hc
        rcases List.mem_map.mp hc with ⟨k, hk, hEq⟩
        rcases List.mem_range'_1.mp hk with ⟨hk1, hk2⟩
        have h5 := Hconv s k hlo (by omega) (by omega) hEq.symm
        exact hTsne (h5 (b + 1) (by omega) (by omega)).symm
      have hsplit : List.range' s (hi - s) =
          List.range' s (b + 1 - s) ++ List.range' (b + 1) (hi - (b + 1)) := by
        have h1 : s + 1 * (b + 1 - s) = b + 1 := by omega
        have h2 : (hi - (b + 1)) + (b + 1 - s) = hi - s := by omega
        rw [← h2, ← List.range'_append, h1]
      rw [hloop, hsplit, List.map_append]
      rw [firstDedup_append_const _ _ (wordAt sa s d) ?hne ?hall hnotin]
      · rw [← ih (b + 1) (by omega) hb3 (by omega)]
      · have h2 : (List.range' s (b + 1 - s)).length = b + 1 - s :=
          List.length_range' s 1 (b + 1 - s)
        intro hc
        rw [List.map_eq_nil_iff] at hc
        rw [hc] at h2
        simp at h2
        omega
      · intro y hy
        rcases List.mem_map.mp hy with ⟨p, hp, rfl⟩
        rcases List.mem_range'_1.mp hp with ⟨hp1, hp2⟩
        exact hconst p hp1 (by omega)

/-- C2 (amended): over a rank range whose suffixes share their first `d`
tokens — consecutive lcp values within the range are at most `d` exactly when
the tokens at offset `d` differ, and equal tokens at offset `d` form
contiguous runs, as both hold in a true suffix array over a shared-prefix
range — `collect_words_in_range(lo, hi, d)` returns exactly the distinct
tokens observed at offset `d` across `[lo, hi)`, each once, in
first-occurrence order; in particular the empty sequence when `lo = hi`. -/
theorem c2_collect_words_distinct_on_shared_range (sa : SufArr) (lo hi d : Nat)
    (hle : lo ≤ hi)
    (Hsem : ∀ j, lo ≤ j → j + 1 < hi →
      (sa.lcp.getD j 0 ≤ d ↔ wordAt sa j d ≠ wordAt sa (j + 1) d))
    (Hconv : ∀ j k, lo ≤ j → j ≤ k → k < hi → wordAt sa j d = wordAt sa k d →
      ∀ p, j ≤ p → p ≤ k → wordAt sa p d = wordAt sa j d) :
    collect_words_in_range sa lo hi d =
      firstDedup ((List.range' lo (hi - lo)).map (fun p => wordAt sa p d)) := by
  by_cases h0 : lo = hi
  · subst h0
    rw [collect_words_in_range, if_pos rfl, Nat.sub_self]
    rfl
  · have hlt : lo < hi := by omega
    rw [collect_words_in_range, if_neg h0]
    exact cwir_main sa d lo hi Hsem Hconv (hi - lo) lo le_rfl hlt (by omega)

/-- Witness for C2 (amended): on the two-suffix range sharing the one-token
prefix "a", the collected tokens at offset 1 are exactly ["x", "y"]. -/
theorem c2_collect_words_distinct_on_shared_range_witness : collect_words_in_range C2WSA 0 2 1 =
    firstDedup ((List.range' 0 2).map (fun p => wordAt C2WSA p 1)) :=
  c2_collect_words_distinct_on_shared_range C2WSA 0 2 1 (by omega)
    (fun j h1 h2 => by
      have hj : j = 0 := by omega
      subst hj
      decide)
    (fun j k h1 h2 h3 h4 p h5 h6 => by
      have hj : j ≤ 1 := by omega
      have hk : k ≤ 1 := by omega
      interval_cases j <;> interval_cases k <;> interval_cases p <;>
        first
        | rfl
        | (revert h4; decide))
